import Mathlib

/-!
Shallow embedding of `src/terminal_monitoring.py` and verification of the
specification's claims about it.

The program polls a list of servers with `quser`, keeps two SQLite tables -
`ActiveSessions (SessionId primary key, Username, LogonTime)` and
`Users (Username primary key, TotalMinutes)` - and each cycle closes out the
stored sessions that are absent from the merged snapshot, credits their
duration to the owning user, and inserts the newly observed sessions.

Time is modelled at one-second granularity: `now` is an integer number of
seconds, and stored logon timestamps parse to an integer number of minutes,
exactly the granularity of the `"%d.%m.%Y %H:%M"` format the program uses.
Tables are modelled as lists of rows.
-/

namespace TerminalMonitoring

/-- One row parsed from `quser` output, the dict built in
`get_active_sessions` (lines 100-105 of the source). -/
structure Session where
  username : String
  sessionId : String
  state : String
  logonTime : String
deriving DecidableEq

/-- One row of the `ActiveSessions` table; `SessionId` is the sole primary
key (lines 46-52). -/
structure ActiveRecord where
  sessionId : String
  username : String
  logonTime : String
deriving DecidableEq

/-- The database: the `ActiveSessions` rows and the `Users` rows
(username, total minutes). -/
structure Store where
  records : List ActiveRecord
  users : List (String × Int)
deriving DecidableEq

/-- Leap-year rule of the proleptic Gregorian calendar, as used by Python
`datetime`. -/
def isLeap (y : Nat) : Bool :=
  y % 4 == 0 && (y % 100 != 0 || y % 400 == 0)

/-- Days in month `m` of year `y`, as validated by `datetime`. -/
def daysInMonth (y m : Nat) : Nat :=
  if m == 2 then (if isLeap y then 29 else 28)
  else if m == 4 || m == 6 || m == 9 || m == 11 then 30
  else 31

/-- Days from 01.01.0001 to the first of January of year `y`. -/
def daysBeforeYear (y : Nat) : Nat :=
  365 * (y - 1) + (y - 1) / 4 - (y - 1) / 100 + (y - 1) / 400

/-- Days from the first of January of year `y` to the first of month `m`. -/
def daysBeforeMonth (y m : Nat) : Nat :=
  ((List.range (m - 1)).map (fun i => daysInMonth y (i + 1))).sum

/-- Minutes from 01.01.0001 00:00 to the given date and time. -/
def toMinutes (y mo d h mi : Nat) : Nat :=
  ((daysBeforeYear y + daysBeforeMonth y mo + (d - 1)) * 24 + h) * 60 + mi

/-- Numeric value of a list of decimal digits. -/
def digitsVal (cs : List Char) : Nat :=
  cs.foldl (fun a c => 10 * a + (c.toNat - 48)) 0

/-- Longest prefix of at most `k` decimal digits, together with the rest of
the input. -/
def takeDigits : Nat → List Char → List Char × List Char
  | 0, cs => ([], cs)
  | _ + 1, [] => ([], [])
  | k + 1, c :: cs =>
    if c.isDigit then
      let p := takeDigits k cs
      (c :: p.1, p.2)
    else ([], c :: cs)

/-- Model of `datetime.strptime(s, "%d.%m.%Y %H:%M")` on line 155: `some`
minutes-since-epoch on success, `none` where Python raises `ValueError`.
Field widths and checks follow `strptime` and the `datetime` constructor:
one or two digit day, month, hour and minute, exactly four digit year, a run
of spaces between date and time, the whole string consumed, month in 1..12,
day within the month, year at least 1, hour at most 23, minute at most 59. -/
def parseLogon (s : String) : Option Nat :=
  let p1 := takeDigits 2 s.toList
  match p1.1, p1.2 with
  | [], _ => none
  | dds, '.' :: cs1 =>
    let p2 := takeDigits 2 cs1
    match p2.1, p2.2 with
    | [], _ => none
    | mds, '.' :: cs2 =>
      let p3 := takeDigits 4 cs2
      if p3.1.length != 4 then none else
      match p3.2 with
      | ' ' :: cs3 =>
        let cs4 := cs3.dropWhile (fun c => c == ' ')
        let p4 := takeDigits 2 cs4
        match p4.1, p4.2 with
        | [], _ => none
        | hds, ':' :: cs5 =>
          let p5 := takeDigits 2 cs5
          match p5.1, p5.2 with
          | [], _ => none
          | mids, [] =>
            let d := digitsVal dds
            let mo := digitsVal mds
            let y := digitsVal p3.1
            let h := digitsVal hds
            let mi := digitsVal mids
            if 1 ≤ d && 1 ≤ mo && mo ≤ 12 && 1 ≤ y && h ≤ 23 && mi ≤ 59 &&
               d ≤ daysInMonth y mo
            then some (toMinutes y mo d h mi)
            else none
          | _, _ => none
        | _, _ => none
      | _ => none
    | _, _ => none
  | _, _ => none

/-- Python `round` applied to `n / 60` where `n` is an integer number of
seconds: round-half-to-even on the exact rational value. -/
def roundDiv60 (n : Int) : Int :=
  if n % 60 < 30 then n / 60
  else if 30 < n % 60 then n / 60 + 1
  else if (n / 60) % 2 = 0 then n / 60
  else n / 60 + 1

/-- Line 156: `round((current_time - logon_time).total_seconds() / 60)`,
with `now` in seconds and the stored logon time in minutes. -/
def sessionDuration (now : Int) (logonMinutes : Nat) : Int :=
  roundDiv60 (now - 60 * (logonMinutes : Int))

/-- Python `str.isdigit` restricted to ASCII: nonempty and all digits
(line 91). -/
def isAllDigits (s : String) : Bool :=
  !s.toList.isEmpty && s.toList.all Char.isDigit

/-- Result of running `quser` against one host: either the rows of its
output, or a failure (timeout, non-zero exit or exception; lines 68-73 and
108-113). -/
inductive FetchOutcome where
  | ok : List Session → FetchOutcome
  | failure : FetchOutcome
deriving DecidableEq

/-- Model of `get_active_sessions` (lines 58-113). Row tokenisation is
abstracted to the already split rows; the function keeps the rows whose
session id is numeric and whose username is not `admin`, and returns the
empty list on any fetch failure - indistinguishable from a host that has no
sessions. -/
def get_active_sessions : FetchOutcome → List Session
  | .failure => []
  | .ok raw => raw.filter (fun s => isAllDigits s.sessionId && s.username != "admin")

/-- The merged snapshot built by `main` (lines 197-202): the per-host
results concatenated. -/
def snapshotOf (fetches : List FetchOutcome) : List Session :=
  (fetches.map get_active_sessions).flatten

/-- The query `SELECT TotalMinutes FROM Users WHERE Username = u`;
`Username` is the primary key. -/
def lookupTotal : List (String × Int) → String → Option Int
  | [], _ => none
  | p :: ps, u => if p.1 = u then some p.2 else lookupTotal ps u

/-- Model of `update_user_time` (lines 115-133): the ignored user `admin`
is skipped; otherwise `INSERT OR REPLACE INTO Users VALUES (u,
COALESCE((SELECT TotalMinutes FROM Users WHERE Username = u), 0) + d)` -
the conflicting row is replaced by the row holding the incremented total. -/
def update_user_time (users : List (String × Int)) (username : String)
    (duration : Int) : List (String × Int) :=
  if username = "admin" then users
  else users.filter (fun p => p.1 != username) ++
    [(username, (lookupTotal users username).getD 0 + duration)]

/-- The set of observed session ids built on line 149. -/
def observedIds (obs : List Session) : List String :=
  obs.map (fun s => s.sessionId)

/-- The closeout loop of `check_completed_sessions` (lines 152-161): a
stored row absent from the observed ids is completed - its logon time is
parsed (a `ValueError` is modelled as `.error ()`), its duration is
collected, and the row is deleted; a row still observed is kept. -/
def closeoutScan (now : Int) (ids : List String) :
    List ActiveRecord → Except Unit (List ActiveRecord × List (String × Int))
  | [] => .ok ([], [])
  | r :: rest =>
    if r.sessionId ∈ ids then
      match closeoutScan now ids rest with
      | .ok x => .ok (r :: x.1, x.2)
      | .error e => .error e
    else
      match parseLogon r.logonTime with
      | none => .error ()
      | some m =>
        match closeoutScan now ids rest with
        | .ok x => .ok (x.1, (r.username, sessionDuration now m) :: x.2)
        | .error e => .error e

/-- The update loop over the completed sessions (lines 164-167). -/
def applyCompleted (users : List (String × Int))
    (completed : List (String × Int)) : List (String × Int) :=
  completed.foldl (fun us p => update_user_time us p.1 p.2) users

/-- Body of the insert loop (lines 177-183): a row is inserted only when no
row with the same session id is already present. -/
def insertStep (recs : List ActiveRecord) (s : Session) : List ActiveRecord :=
  if recs.any (fun r => r.sessionId == s.sessionId) then recs
  else recs ++ [⟨s.sessionId, s.username, s.logonTime⟩]

/-- The insert loop over the observed sessions (lines 172-183). -/
def insertNew (records : List ActiveRecord) (obs : List Session) :
    List ActiveRecord :=
  obs.foldl insertStep records

/-- Model of `check_completed_sessions` (lines 135-187): close out the
stored rows absent from the snapshot, apply the collected user-time
updates, insert the new rows. A `ValueError` from `strptime` escapes the
`sqlite3.Error` handler, so it is surfaced as `.error ()`; it occurs during
the scan, before any user-time update has run. -/
def check_completed_sessions (store : Store) (active_sessions : List Session)
    (now : Int) : Except Unit Store :=
  match closeoutScan now (observedIds active_sessions) store.records with
  | .error e => .error e
  | .ok x => .ok ⟨insertNew x.1 active_sessions, applyCompleted store.users x.2⟩

/-- The durable effect of one cycle on the store: on an exception the open
connection rolls back its uncommitted statements, leaving the store
unchanged. -/
def applyCycle (store : Store) (obs : List Session) (now : Int) : Store :=
  match check_completed_sessions store obs now with
  | .ok st => st
  | .error _ => store

/-- One iteration input of `main`'s loop: the per-host fetch outcomes of
the cycle and the cycle's `datetime.now()` in seconds. -/
structure CycleInput where
  fetches : List FetchOutcome
  now : Int

/-- Model of `main`'s polling loop (lines 195-232): each cycle merges the
per-host results and reconciles. An exception escaping
`check_completed_sessions` is caught by `main`'s generic handler, which
logs it and falls out of the loop; the boolean records that the process
terminated early, before the remaining cycles. -/
def runCycles : Store → List CycleInput → Store × Bool
  | store, [] => (store, false)
  | store, c :: rest =>
    match check_completed_sessions store (snapshotOf c.fetches) c.now with
    | .ok st => runCycles st rest
    | .error _ => (store, true)

/-- The sequence of durable database states one cycle can leave behind if
the process stops mid-cycle: `update_user_time` opens its own connection
and commits after each completed session (line 130), while the deletions
and inserts of the outer connection only become durable at its final
commit (line 185). Entry `k` of the first block is the state after the
first `k` user-total commits. -/
def durableStates (store : Store) (obs : List Session) (now : Int) :
    List Store :=
  match closeoutScan now (observedIds obs) store.records with
  | .error _ => [store]
  | .ok x =>
    (List.range (x.2.length + 1)).map
      (fun k => ⟨store.records, applyCompleted store.users (x.2.take k)⟩)
    ++ [⟨insertNew x.1 obs, applyCompleted store.users x.2⟩]

/-- Total minutes recorded for a user; zero when the row is absent. -/
def totalOf (store : Store) (u : String) : Int :=
  (lookupTotal store.users u).getD 0

/-- Every stored row whose logon time parses has it at or before `now`
(given in seconds). -/
def allLogonsAtOrBefore (records : List ActiveRecord) (now : Int) : Bool :=
  records.all fun r =>
    match parseLogon r.logonTime with
    | none => true
    | some m => decide (60 * (m : Int) ≤ now)

/-- Every recorded total is non-negative. -/
def allTotalsNonneg (users : List (String × Int)) : Bool :=
  users.all fun p => decide (0 ≤ p.2)

/-- Seconds value of the observation instant 01.01.2025 09:46. -/
def sec0946 : Int := 60 * (toMinutes 2025 1 1 9 46 : Int)

/-- Seconds value of the observation instant 01.01.2025 09:47. -/
def sec0947 : Int := 60 * (toMinutes 2025 1 1 9 47 : Int)

/-- Seconds value of the observation instant 01.01.2025 10:00. -/
def sec1000 : Int := 60 * (toMinutes 2025 1 1 10 0 : Int)

/-- A record whose session id is observed stays in the snapshot id list. -/
theorem mem_observedIds {s : Session} {obs : List Session} (hs : s ∈ obs) :
    s.sessionId ∈ observedIds obs :=
  List.mem_map_of_mem _ hs

/-- When every stored row's id is observed, the scan completes nothing and
keeps every row. -/
theorem closeoutScan_ok_of_all_present (now : Int) (ids : List String)
    (records : List ActiveRecord) (h : ∀ r ∈ records, r.sessionId ∈ ids) :
    closeoutScan now ids records = .ok (records, []) := by
  induction records with
  | nil => rfl
  | cons r rest ih =>
    have hr : r.sessionId ∈ ids := h r (List.mem_cons_self _ _)
    have ih' := ih (fun x hx => h x (List.mem_cons_of_mem _ hx))
    simp [closeoutScan, hr, ih']

/-- Whether the scan raises does not depend on the observation time. -/
theorem closeoutScan_error_time (ids : List String) (t t' : Int)
    (records : List ActiveRecord)
    (h : closeoutScan t ids records = .error ()) :
    closeoutScan t' ids records = .error () := by
  induction records with
  | nil => simp [closeoutScan] at h
  | cons r rest ih =>
    simp only [closeoutScan] at h ⊢
    by_cases hr : r.sessionId ∈ ids
    · rw [if_pos hr] at h ⊢
      cases hrec : closeoutScan t ids rest with
      | ok x => rw [hrec] at h; simp at h
      | error e =>
        cases e
        rw [ih hrec]
    · rw [if_neg hr] at h ⊢
      cases hp : parseLogon r.logonTime with
      | none => simp [hp]
      | some m =>
        simp only [hp] at h ⊢
        cases hrec : closeoutScan t ids rest with
        | ok x => rw [hrec] at h; simp at h
        | error e =>
          cases e
          rw [ih hrec]

/-- Every row the scan keeps was stored and has an observed id. -/
theorem closeoutScan_ok_recs_mem (now : Int) (ids : List String) :
    ∀ (records recs : List ActiveRecord) (comp : List (String × Int)),
      closeoutScan now ids records = .ok (recs, comp) →
      ∀ r ∈ recs, r ∈ records ∧ r.sessionId ∈ ids := by
  intro records
  induction records with
  | nil =>
    intro recs comp h r hr
    simp only [closeoutScan, Except.ok.injEq, Prod.mk.injEq] at h
    obtain ⟨h1, _⟩ := h
    rw [← h1] at hr
    cases hr
  | cons a rest ih =>
    intro recs comp h r hr
    simp only [closeoutScan] at h
    by_cases ha : a.sessionId ∈ ids
    · rw [if_pos ha] at h
      cases hrec : closeoutScan now ids rest with
      | error e => rw [hrec] at h; cases h
      | ok x =>
        obtain ⟨recs', comp'⟩ := x
        rw [hrec] at h
        simp only [Except.ok.injEq, Prod.mk.injEq] at h
        obtain ⟨h1, _⟩ := h
        rw [← h1] at hr
        rcases List.mem_cons.mp hr with rfl | hr'
        · exact ⟨List.mem_cons_self _ _, ha⟩
        · obtain ⟨hmem, hid⟩ := ih recs' comp' hrec r hr'
          exact ⟨List.mem_cons_of_mem _ hmem, hid⟩
    · rw [if_neg ha] at h
      cases hp : parseLogon a.logonTime with
      | none => rw [hp] at h; cases h
      | some m =>
        rw [hp] at h
        cases hrec : closeoutScan now ids rest with
        | error e => rw [hrec] at h; cases h
        | ok x =>
          obtain ⟨recs', comp'⟩ := x
          rw [hrec] at h
          simp only [Except.ok.injEq, Prod.mk.injEq] at h
          obtain ⟨h1, _⟩ := h
          rw [← h1] at hr
          obtain ⟨hmem, hid⟩ := ih recs' comp' hrec r hr
          exact ⟨List.mem_cons_of_mem _ hmem, hid⟩

/-- Every completed entry comes from a stored row: its duration is the
rounded distance from that row's parsed logon time to `now`. -/
theorem closeoutScan_comp_spec (now : Int) (ids : List String) :
    ∀ (records recs : List ActiveRecord) (comp : List (String × Int)),
      closeoutScan now ids records = .ok (recs, comp) →
      ∀ p ∈ comp, ∃ r ∈ records, ∃ m : Nat,
        parseLogon r.logonTime = some m ∧ p.2 = sessionDuration now m := by
  intro records
  induction records with
  | nil =>
    intro recs comp h p hp
    simp only [closeoutScan, Except.ok.injEq, Prod.mk.injEq] at h
    obtain ⟨_, h2⟩ := h
    rw [← h2] at hp
    cases hp
  | cons a rest ih =>
    intro recs comp h p hp
    simp only [closeoutScan] at h
    by_cases ha : a.sessionId ∈ ids
    · rw [if_pos ha] at h
      cases hrec : closeoutScan now ids rest with
      | error e => rw [hrec] at h; cases h
      | ok x =>
        obtain ⟨recs', comp'⟩ := x
        rw [hrec] at h
        simp only [Except.ok.injEq, Prod.mk.injEq] at h
        obtain ⟨_, h2⟩ := h
        rw [← h2] at hp
        obtain ⟨r, hrm, m, hparse, hdur⟩ := ih recs' comp' hrec p hp
        exact ⟨r, List.mem_cons_of_mem _ hrm, m, hparse, hdur⟩
    · rw [if_neg ha] at h
      cases hparse : parseLogon a.logonTime with
      | none => rw [hparse] at h; cases h
      | some m =>
        rw [hparse] at h
        cases hrec : closeoutScan now ids rest with
        | error e => rw [hrec] at h; cases h
        | ok x =>
          obtain ⟨recs', comp'⟩ := x
          rw [hrec] at h
          simp only [Except.ok.injEq, Prod.mk.injEq] at h
          obtain ⟨_, h2⟩ := h
          rw [← h2] at hp
          rcases List.mem_cons.mp hp with rfl | hp'
          · exact ⟨a, List.mem_cons_self _ _, m, hparse, rfl⟩
          · obtain ⟨r, hrm, m', hparse', hdur⟩ := ih recs' comp' hrec p hp'
            exact ⟨r, List.mem_cons_of_mem _ hrm, m', hparse', hdur⟩

/-- The insert loop only appends rows, and each appended row carries the
id, username and logon time of some observed session. -/
theorem insertNew_eq_append (obs : List Session) :
    ∀ recs, ∃ extra, insertNew recs obs = recs ++ extra ∧
      ∀ r ∈ extra, ∃ s ∈ obs, r.sessionId = s.sessionId ∧
        r.username = s.username ∧ r.logonTime = s.logonTime := by
  induction obs with
  | nil =>
    intro recs
    exact ⟨[], by simp [insertNew], by intro r hr; cases hr⟩
  | cons s0 obs ih =>
    intro recs
    by_cases hany : recs.any (fun t => t.sessionId == s0.sessionId) = true
    · obtain ⟨extra, heq, hprop⟩ := ih recs
      refine ⟨extra, ?_, ?_⟩
      · show insertNew (insertStep recs s0) obs = recs ++ extra
        rw [insertStep, if_pos hany]
        exact heq
      · intro r hr
        obtain ⟨s, hs, hp⟩ := hprop r hr
        exact ⟨s, List.mem_cons_of_mem _ hs, hp⟩
    · obtain ⟨extra, heq, hprop⟩ :=
        ih (recs ++ [⟨s0.sessionId, s0.username, s0.logonTime⟩])
      refine ⟨⟨s0.sessionId, s0.username, s0.logonTime⟩ :: extra, ?_, ?_⟩
      · show insertNew (insertStep recs s0) obs = _
        rw [insertStep, if_neg hany, heq, List.append_assoc]
        rfl
      · intro r hr
        rcases List.mem_cons.mp hr with rfl | hr'
        · exact ⟨s0, List.mem_cons_self _ _, rfl, rfl, rfl⟩
        · obtain ⟨s, hs, hp⟩ := hprop r hr'
          exact ⟨s, List.mem_cons_of_mem _ hs, hp⟩

/-- Rows present before the insert loop are still present after it. -/
theorem mem_insertNew_of_mem (obs : List Session) (recs : List ActiveRecord)
    (r : ActiveRecord) (hr : r ∈ recs) : r ∈ insertNew recs obs := by
  obtain ⟨extra, heq, _⟩ := insertNew_eq_append obs recs
  rw [heq]
  exact List.mem_append_left _ hr

/-- After the insert loop, every observed session has a row with its id. -/
theorem insertNew_covers (obs : List Session) :
    ∀ recs, ∀ s ∈ obs, ∃ r ∈ insertNew recs obs, r.sessionId = s.sessionId := by
  induction obs with
  | nil =>
    intro recs s hs
    cases hs
  | cons s0 obs ih =>
    intro recs s hs
    rcases List.mem_cons.mp hs with rfl | hs'
    · by_cases hany : recs.any (fun t => t.sessionId == s.sessionId) = true
      · obtain ⟨r, hr, hbeq⟩ := List.any_eq_true.mp hany
        refine ⟨r, ?_, beq_iff_eq.mp hbeq⟩
        show r ∈ insertNew (insertStep recs s) obs
        rw [insertStep, if_pos hany]
        exact mem_insertNew_of_mem obs recs r hr
      · refine ⟨⟨s.sessionId, s.username, s.logonTime⟩, ?_, rfl⟩
        show _ ∈ insertNew (insertStep recs s) obs
        rw [insertStep, if_neg hany]
        exact mem_insertNew_of_mem obs _ _
          (List.mem_append_right _ (List.mem_cons_self _ _))
    · exact ih (insertStep recs s0) s hs'

/-- When every observed session already has a stored row with its id, the
insert loop is the identity. -/
theorem insertNew_noop (obs : List Session) :
    ∀ recs, (∀ s ∈ obs, ∃ r ∈ recs, r.sessionId = s.sessionId) →
      insertNew recs obs = recs := by
  induction obs with
  | nil =>
    intro recs _
    rfl
  | cons s0 obs ih =>
    intro recs h
    obtain ⟨r, hr, hid⟩ := h s0 (List.mem_cons_self _ _)
    have hany : recs.any (fun t => t.sessionId == s0.sessionId) = true :=
      List.any_eq_true.mpr ⟨r, hr, beq_iff_eq.mpr hid⟩
    have hstep : insertStep recs s0 = recs := by
      rw [insertStep, if_pos hany]
    show insertNew (insertStep recs s0) obs = recs
    rw [hstep]
    exact ih recs (fun s hs => h s (List.mem_cons_of_mem _ hs))

/-- Looking up a user other than `u` passes over the filtered rows and the
appended `u` row. -/
theorem lookupTotal_filter_append_ne (u v : String) (t : Int) (hvu : v ≠ u) :
    ∀ us : List (String × Int),
      lookupTotal (us.filter (fun p => p.1 != u) ++ [(u, t)]) v =
        lookupTotal us v := by
  intro us
  induction us with
  | nil =>
    simp only [List.filter_nil, List.nil_append, lookupTotal]
    rw [if_neg (fun h => hvu h.symm)]
  | cons p ps ih =>
    by_cases hp : p.1 = u
    · have h1 : (p.1 != u) = false := by simp [hp]
      have h2 : ¬(p.1 = v) := by rw [hp]; exact fun h => hvu h.symm
      simp only [List.filter_cons, h1, Bool.false_eq_true, if_false, lookupTotal,
        if_neg h2]
      exact ih
    · have h1 : (p.1 != u) = true := by simp [hp]
      simp only [List.filter_cons, h1, if_true, List.cons_append, lookupTotal]
      by_cases hv : p.1 = v
      · rw [if_pos hv, if_pos hv]
      · rw [if_neg hv, if_neg hv]
        exact ih

/-- Looking up `u` after the replace lands on the appended row. -/
theorem lookupTotal_filter_append_self (u : String) (t : Int) :
    ∀ us : List (String × Int),
      lookupTotal (us.filter (fun p => p.1 != u) ++ [(u, t)]) u = some t := by
  intro us
  induction us with
  | nil => simp [lookupTotal]
  | cons p ps ih =>
    by_cases hp : p.1 = u
    · have h1 : (p.1 != u) = false := by simp [hp]
      simp only [List.filter_cons, h1, Bool.false_eq_true, if_false]
      exact ih
    · have h1 : (p.1 != u) = true := by simp [hp]
      simp only [List.filter_cons, h1, if_true, List.cons_append, lookupTotal,
        if_neg hp]
      exact ih

/-- An update for `u` does not change any other user's row. -/
theorem lookupTotal_update_ne (us : List (String × Int)) (u v : String)
    (d : Int) (hvu : v ≠ u) :
    lookupTotal (update_user_time us u d) v = lookupTotal us v := by
  unfold update_user_time
  by_cases hu : u = "admin"
  · rw [if_pos hu]
  · rw [if_neg hu]
    exact lookupTotal_filter_append_ne u v _ hvu us

/-- An update for a non-ignored `u` stores the incremented total. -/
theorem lookupTotal_update_self (us : List (String × Int)) (u : String)
    (d : Int) (hu : ¬u = "admin") :
    lookupTotal (update_user_time us u d) u =
      some ((lookupTotal us u).getD 0 + d) := by
  unfold update_user_time
  rw [if_neg hu]
  exact lookupTotal_filter_append_self u _ us

/-- An update never touches the ignored user's row. -/
theorem lookupTotal_update_admin (us : List (String × Int)) (u : String)
    (d : Int) :
    lookupTotal (update_user_time us u d) "admin" = lookupTotal us "admin" := by
  by_cases hu : u = "admin"
  · subst hu
    unfold update_user_time
    rw [if_pos rfl]
  · exact lookupTotal_update_ne us u "admin" d (fun h => hu h.symm)

/-- A found row is a row of the table. -/
theorem lookupTotal_mem :
    ∀ (us : List (String × Int)) (u : String) (t : Int),
      lookupTotal us u = some t → (u, t) ∈ us := by
  intro us
  induction us with
  | nil =>
    intro u t h
    simp [lookupTotal] at h
  | cons p ps ih =>
    intro u t h
    obtain ⟨a, b⟩ := p
    unfold lookupTotal at h
    by_cases ha : a = u
    · rw [if_pos ha] at h
      injection h with h'
      rw [← ha, ← h']
      exact List.mem_cons_self _ _
    · rw [if_neg ha] at h
      exact List.mem_cons_of_mem _ (ih u t h)

/-- Every row after an update is an old row or the replaced `u` row. -/
theorem mem_update_user_time (us : List (String × Int)) (u : String)
    (d : Int) (p : String × Int) (hp : p ∈ update_user_time us u d) :
    p ∈ us ∨ p = (u, (lookupTotal us u).getD 0 + d) := by
  unfold update_user_time at hp
  by_cases hu : u = "admin"
  · rw [if_pos hu] at hp
    exact Or.inl hp
  · rw [if_neg hu] at hp
    rcases List.mem_append.mp hp with h | h
    · exact Or.inl (List.mem_of_mem_filter h)
    · exact Or.inr (List.mem_singleton.mp h)

/-- An update by a non-negative duration keeps all totals non-negative. -/
theorem update_user_time_nonneg (us : List (String × Int)) (u : String)
    (d : Int) (hus : ∀ p ∈ us, 0 ≤ p.2) (hd : 0 ≤ d) :
    ∀ p ∈ update_user_time us u d, 0 ≤ p.2 := by
  intro p hp
  rcases mem_update_user_time us u d p hp with h | h
  · exact hus p h
  · rw [h]
    cases hl : lookupTotal us u with
    | none => simpa [hl] using hd
    | some t =>
      have ht := hus _ (lookupTotal_mem us u t hl)
      simp only [hl, Option.getD_some]
      omega

/-- An update by a non-negative duration never lowers any user's total. -/
theorem update_user_time_mono (us : List (String × Int)) (u v : String)
    (d : Int) (hd : 0 ≤ d) :
    (lookupTotal us v).getD 0 ≤
      (lookupTotal (update_user_time us u d) v).getD 0 := by
  by_cases hu : u = "admin"
  · unfold update_user_time
    rw [if_pos hu]
  · by_cases hv : v = u
    · subst hv
      rw [lookupTotal_update_self us v d hu]
      cases hl : lookupTotal us v with
      | none => simp; omega
      | some t => simp; omega
    · rw [lookupTotal_update_ne us u v d hv]

/-- Folding the update loop preserves the ignored user's row. -/
theorem applyCompleted_lookup_admin (completed : List (String × Int)) :
    ∀ us, lookupTotal (applyCompleted us completed) "admin" =
      lookupTotal us "admin" := by
  induction completed with
  | nil =>
    intro us
    rfl
  | cons p comp ih =>
    intro us
    show lookupTotal (applyCompleted (update_user_time us p.1 p.2) comp) "admin" = _
    rw [ih (update_user_time us p.1 p.2), lookupTotal_update_admin]

/-- Folding the update loop over non-negative durations keeps all totals
non-negative. -/
theorem applyCompleted_nonneg (completed : List (String × Int))
    (hc : ∀ p ∈ completed, 0 ≤ p.2) :
    ∀ us, (∀ p ∈ us, 0 ≤ p.2) → ∀ p ∈ applyCompleted us completed, 0 ≤ p.2 := by
  induction completed with
  | nil =>
    intro us hus p hp
    exact hus p hp
  | cons q comp ih =>
    intro us hus p hp
    have hq : 0 ≤ q.2 := hc q (List.mem_cons_self _ _)
    have hc' : ∀ p ∈ comp, 0 ≤ p.2 := fun p hp => hc p (List.mem_cons_of_mem _ hp)
    exact ih hc' (update_user_time us q.1 q.2)
      (update_user_time_nonneg us q.1 q.2 hus hq) p hp

/-- Folding the update loop over non-negative durations never lowers any
user's total. -/
theorem applyCompleted_mono (completed : List (String × Int))
    (hc : ∀ p ∈ completed, 0 ≤ p.2) :
    ∀ us v, (lookupTotal us v).getD 0 ≤
      (lookupTotal (applyCompleted us completed) v).getD 0 := by
  induction completed with
  | nil =>
    intro us v
    exact le_refl _
  | cons q comp ih =>
    intro us v
    have hq : 0 ≤ q.2 := hc q (List.mem_cons_self _ _)
    have hc' : ∀ p ∈ comp, 0 ≤ p.2 := fun p hp => hc p (List.mem_cons_of_mem _ hp)
    exact le_trans (update_user_time_mono us q.1 v q.2 hq)
      (ih hc' (update_user_time us q.1 q.2) v)

/-- Rounding a non-negative number of seconds gives a non-negative number
of minutes. -/
theorem roundDiv60_nonneg (n : Int) (h : 0 ≤ n) : 0 ≤ roundDiv60 n := by
  unfold roundDiv60
  split_ifs <;> omega

/-- The rounded minute count is within half a minute of the exact value,
and an exact half minute is rounded to the even neighbour. -/
theorem roundDiv60_near (n : Int) :
    (60 * roundDiv60 n - n).natAbs ≤ 30 ∧
      ((60 * roundDiv60 n - n).natAbs = 30 → roundDiv60 n % 2 = 0) := by
  unfold roundDiv60
  split_ifs <;> constructor <;> omega

/-- The snapshot never contains a session of the ignored user. -/
theorem snapshot_username_ne_admin (fetches : List FetchOutcome) :
    ∀ s ∈ snapshotOf fetches, s.username ≠ "admin" := by
  intro s hs
  unfold snapshotOf at hs
  rw [List.mem_flatten] at hs
  obtain ⟨l, hl, hsl⟩ := hs
  rw [List.mem_map] at hl
  obtain ⟨f, _, rfl⟩ := hl
  cases f with
  | failure => cases hsl
  | ok raw =>
    simp only [get_active_sessions, List.mem_filter, Bool.and_eq_true,
      bne_iff_ne] at hsl
    exact hsl.2.2

/-- A cycle whose snapshot is a single session with the stored row's id
changes nothing: the row is kept (whatever username and logon time the
observation carries) and no total moves. -/
theorem cycle_present_noop (users : List (String × Int)) (id u ts : String)
    (s : Session) (now : Int) (hs : s.sessionId = id) :
    applyCycle ⟨[⟨id, u, ts⟩], users⟩ [s] now = ⟨[⟨id, u, ts⟩], users⟩ := by
  have hmem : (⟨id, u, ts⟩ : ActiveRecord).sessionId ∈ observedIds [s] := by
    simp [observedIds, hs]
  have hscan : closeoutScan now (observedIds [s]) [⟨id, u, ts⟩] =
      .ok ([⟨id, u, ts⟩], []) :=
    closeoutScan_ok_of_all_present now _ _ (by
      intro r hr
      rcases List.mem_singleton.mp hr with rfl
      exact hmem)
  have hins : insertNew [⟨id, u, ts⟩] [s] = [⟨id, u, ts⟩] :=
    insertNew_noop [s] _ (by
      intro t ht
      rcases List.mem_singleton.mp ht with rfl
      exact ⟨⟨id, u, ts⟩, List.mem_singleton.mpr rfl, hs.symm⟩)
  simp [applyCycle, check_completed_sessions, hscan, hins, applyCompleted]

/-- A cycle whose snapshot is empty closes the single stored row out,
crediting its user with the rounded duration since the stored logon time. -/
theorem cycle_closeout_single (users : List (String × Int)) (id u ts : String)
    (m : Nat) (now : Int) (h : parseLogon ts = some m) :
    applyCycle ⟨[⟨id, u, ts⟩], users⟩ [] now =
      ⟨[], update_user_time users u (sessionDuration now m)⟩ := by
  have hscan : closeoutScan now (observedIds []) [⟨id, u, ts⟩] =
      .ok ([], [(u, sessionDuration now m)]) := by
    simp [closeoutScan, observedIds, h]
  simp [applyCycle, check_completed_sessions, hscan, insertNew, applyCompleted]

/-- Claim C1: when a host's fetch fails, the stored rows belonging to that
host must be left untouched by the cycle. The code violates this: a failed
fetch returns the empty list, indistinguishable from a host with no
sessions, so the merged snapshot omits the host's sessions and the cycle
closes them out. Here the only stored row came from the failing host: the
cycle deletes it and credits its user 47 minutes instead of leaving it
untouched. -/
theorem claim_C1_failed_host_closed_out :
    applyCycle ⟨[⟨"7", "bob", "01.01.2025 09:00"⟩], []⟩
        (snapshotOf [FetchOutcome.failure]) sec0947
      = ⟨[], [("bob", 47)]⟩ := by decide

/-- Claim C2: all of a cycle's steps should commit atomically. The code
violates this: `update_user_time` commits on its own connection (line 130)
before the outer connection's deletions and inserts commit (line 185), so
stopping the process between the two commits leaves a durable state - row
still present, total already incremented - that is neither the pre-cycle
nor the post-cycle state. -/
theorem claim_C2_partial_commit_state :
    durableStates ⟨[⟨"5", "dave", "01.01.2025 09:00"⟩], []⟩ [] sec0947
      = [⟨[⟨"5", "dave", "01.01.2025 09:00"⟩], []⟩,
         ⟨[⟨"5", "dave", "01.01.2025 09:00"⟩], [("dave", 47)]⟩,
         ⟨[], [("dave", 47)]⟩]
    ∧ (⟨[⟨"5", "dave", "01.01.2025 09:00"⟩], [("dave", 47)]⟩ : Store)
        ≠ ⟨[⟨"5", "dave", "01.01.2025 09:00"⟩], []⟩
    ∧ (⟨[⟨"5", "dave", "01.01.2025 09:00"⟩], [("dave", 47)]⟩ : Store)
        ≠ ⟨[], [("dave", 47)]⟩ := by
  refine ⟨by decide, by decide, by decide⟩

/-- Claim C3: an unparseable stored logon timestamp must not terminate the
monitoring process. The code violates this: `strptime`'s `ValueError` is
not a `sqlite3.Error`, so it escapes `check_completed_sessions`, is caught
by `main`'s generic handler and ends the loop. With a stored row whose
logon time does not parse and two scheduled cycles, the run stops after
the first cycle (flag `true`) and the second cycle never executes; the
row itself survives only because the open transaction rolls back. -/
theorem claim_C3_parse_error_terminates :
    parseLogon "not a date" = none
    ∧ runCycles ⟨[⟨"9", "carol", "not a date"⟩], []⟩
        [⟨[FetchOutcome.ok []], sec0946⟩, ⟨[FetchOutcome.ok []], sec0947⟩]
      = (⟨[⟨"9", "carol", "not a date"⟩], []⟩, true) := by
  refine ⟨by decide, by decide⟩

/-- Claim C9: two hosts reporting the same numeric session id for different
users must be tracked distinctly. The code violates this: `SessionId` is
the sole primary key, so only the first host's row is inserted - bob's
session is never tracked, and the later closeout credits only alice. -/
theorem claim_C9_conflated_ids :
    applyCycle ⟨[], []⟩
        (snapshotOf [FetchOutcome.ok [⟨"alice", "3", "Active", "01.01.2025 09:00"⟩],
                     FetchOutcome.ok [⟨"bob", "3", "Active", "01.01.2025 10:00"⟩]])
        sec0946
      = ⟨[⟨"3", "alice", "01.01.2025 09:00"⟩], []⟩
    ∧ applyCycle ⟨[⟨"3", "alice", "01.01.2025 09:00"⟩], []⟩ [] sec0947
      = ⟨[], [("alice", 47)]⟩ := by
  refine ⟨by decide, by decide⟩

/-- Claim C4 counterexample: the claim quantifies over every possible
stored logon timestamp, but a stored logon timestamp in the future of the
closeout instant (here 02.01.2025 10:00 closed out at 01.01.2025 10:00)
makes `round((now - logon) / 60)` negative: eve's total drops from 5 to
-1435, so it is neither non-decreasing nor non-negative. -/
theorem claim_C4_counterexample :
    applyCycle ⟨[⟨"2", "eve", "02.01.2025 10:00"⟩], [("eve", 5)]⟩ [] sec1000
      = ⟨[], [("eve", -1435)]⟩
    ∧ (-1435 : Int) < 5 ∧ (-1435 : Int) < 0 := by
  refine ⟨by decide, by decide, by decide⟩

/-- Claim C5 counterexample: the claim says the credited duration equals
the time between first and last observation (within one minute). Here the
session is observed exactly once, at 09:46 (first = last observation, zero
elapsed time between them), and disappears at 09:47 - but the code credits
round((09:47 - logon)/60) = 107 minutes, measured from the stored logon
time 08:00, which is not within one minute of zero. -/
theorem claim_C5_counterexample :
    applyCycle (applyCycle ⟨[], []⟩
        (snapshotOf [FetchOutcome.ok [⟨"bob", "7", "Active", "01.01.2025 08:00"⟩]])
        sec0946)
        (snapshotOf [FetchOutcome.ok []]) sec0947
      = ⟨[], [("bob", 107)]⟩
    ∧ ¬((107 : Int) ≤ 0 + 1) := by
  refine ⟨by decide, by decide⟩

/-- Claim C4, amended: provided every stored logon timestamp that parses is
at or before the closeout instant, a reconciliation cycle keeps every
stored total non-negative and never lowers any user's total. -/
theorem claim_C4_monotone (store : Store) (obs : List Session) (now : Int)
    (h1 : allLogonsAtOrBefore store.records now = true)
    (h2 : allTotalsNonneg store.users = true) :
    allTotalsNonneg (applyCycle store obs now).users = true
    ∧ ∀ v, totalOf store v ≤ totalOf (applyCycle store obs now) v := by
  have husers : ∀ p ∈ store.users, 0 ≤ p.2 := by
    intro p hp
    exact of_decide_eq_true (List.all_eq_true.mp h2 p hp)
  cases hscan : closeoutScan now (observedIds obs) store.records with
  | error e =>
    have hA : applyCycle store obs now = store := by
      simp [applyCycle, check_completed_sessions, hscan]
    rw [hA]
    exact ⟨h2, fun v => le_refl _⟩
  | ok x =>
    obtain ⟨recs, comp⟩ := x
    have hrec : (applyCycle store obs now).users = applyCompleted store.users comp := by
      simp [applyCycle, check_completed_sessions, hscan]
    have hcomp : ∀ p ∈ comp, 0 ≤ p.2 := by
      intro p hp
      obtain ⟨r, hrm, m, hparse, hdur⟩ :=
        closeoutScan_comp_spec now (observedIds obs) store.records recs comp hscan p hp
      have hall := List.all_eq_true.mp h1 r hrm
      simp only [hparse] at hall
      have hle : 60 * (m : Int) ≤ now := of_decide_eq_true hall
      rw [hdur]
      exact roundDiv60_nonneg _ (by omega)
    constructor
    · rw [hrec]
      apply List.all_eq_true.mpr
      intro p hp
      exact decide_eq_true (applyCompleted_nonneg comp hcomp store.users husers p hp)
    · intro v
      unfold totalOf
      rw [hrec]
      exact applyCompleted_mono comp hcomp store.users v

/-- Witness for claim C4's amended theorem at a concrete store: one row
with logon 09:00 closed out at 09:47, one existing total of 3 minutes. -/
theorem claim_C4_witness :
    (allLogonsAtOrBefore [⟨"1", "frank", "01.01.2025 09:00"⟩] sec0947 = true
     ∧ allTotalsNonneg [("frank", 3)] = true)
    ∧ (allTotalsNonneg
        (applyCycle ⟨[⟨"1", "frank", "01.01.2025 09:00"⟩], [("frank", 3)]⟩
          [] sec0947).users = true
      ∧ ∀ v, totalOf ⟨[⟨"1", "frank", "01.01.2025 09:00"⟩], [("frank", 3)]⟩ v
          ≤ totalOf (applyCycle ⟨[⟨"1", "frank", "01.01.2025 09:00"⟩],
              [("frank", 3)]⟩ [] sec0947) v) :=
  ⟨⟨by decide, by decide⟩, claim_C4_monotone _ _ _ (by decide) (by decide)⟩

/-- Claim C5, amended: a session observed across any number of consecutive
cycles and then absent is credited exactly once, with
round((closing observation time - the record's stored logon timestamp)/60)
minutes - measured from the stored logon timestamp, not from the first
observation - and the intermediate cycles in which it stays present change
nothing at all. -/
theorem claim_C5_once (users : List (String × Int)) (id u ts : String)
    (m : Nat) (cycles : List (Session × Int)) (tf : Int)
    (h : parseLogon ts = some m)
    (hc : ∀ c ∈ cycles, c.1.sessionId = id) :
    cycles.foldl (fun st c => applyCycle st [c.1] c.2) ⟨[⟨id, u, ts⟩], users⟩
      = ⟨[⟨id, u, ts⟩], users⟩
    ∧ applyCycle
        (cycles.foldl (fun st c => applyCycle st [c.1] c.2) ⟨[⟨id, u, ts⟩], users⟩)
        [] tf
      = ⟨[], update_user_time users u (sessionDuration tf m)⟩ := by
  have hfold : ∀ cs : List (Session × Int), (∀ c ∈ cs, c.1.sessionId = id) →
      cs.foldl (fun st c => applyCycle st [c.1] c.2) ⟨[⟨id, u, ts⟩], users⟩
        = ⟨[⟨id, u, ts⟩], users⟩ := by
    intro cs
    induction cs with
    | nil =>
      intro _
      rfl
    | cons c cs ih =>
      intro hcs
      simp only [List.foldl_cons]
      rw [cycle_present_noop users id u ts c.1 c.2 (hcs c (List.mem_cons_self _ _))]
      exact ih (fun c' hc' => hcs c' (List.mem_cons_of_mem _ hc'))
  refine ⟨hfold cycles hc, ?_⟩
  rw [hfold cycles hc]
  exact cycle_closeout_single users id u ts m tf h

/-- Witness for claim C5's amended theorem: bob's session 7 (logon 09:00)
survives one intermediate cycle at 09:46 and is closed out at 09:47. -/
theorem claim_C5_witness :
    (parseLogon "01.01.2025 09:00" = some (toMinutes 2025 1 1 9 0)
     ∧ ∀ c ∈ [((⟨"x", "7", "Active", "07.07.2025 07:07"⟩ : Session), sec0946)],
         c.1.sessionId = "7")
    ∧ ([((⟨"x", "7", "Active", "07.07.2025 07:07"⟩ : Session), sec0946)].foldl
          (fun st c => applyCycle st [c.1] c.2)
          ⟨[⟨"7", "bob", "01.01.2025 09:00"⟩], []⟩
        = ⟨[⟨"7", "bob", "01.01.2025 09:00"⟩], []⟩
      ∧ applyCycle
          ([((⟨"x", "7", "Active", "07.07.2025 07:07"⟩ : Session), sec0946)].foldl
            (fun st c => applyCycle st [c.1] c.2)
            ⟨[⟨"7", "bob", "01.01.2025 09:00"⟩], []⟩)
          [] sec0947
        = ⟨[], update_user_time [] "bob"
            (sessionDuration sec0947 (toMinutes 2025 1 1 9 0))⟩) :=
  ⟨⟨by decide, by decide⟩,
   claim_C5_once [] "7" "bob" "01.01.2025 09:00" (toMinutes 2025 1 1 9 0)
     [((⟨"x", "7", "Active", "07.07.2025 07:07"⟩ : Session), sec0946)] sec0947
     (by decide) (by decide)⟩

/-- Claim C6: reconciling the same snapshot twice in a row produces no
state change the second time, for every store, snapshot and pair of
observation instants. -/
theorem claim_C6_idempotent (store : Store) (obs : List Session) (t1 t2 : Int) :
    applyCycle (applyCycle store obs t1) obs t2 = applyCycle store obs t1 := by
  cases hscan : closeoutScan t1 (observedIds obs) store.records with
  | error e =>
    cases e
    have hA : applyCycle store obs t1 = store := by
      simp [applyCycle, check_completed_sessions, hscan]
    rw [hA]
    have h2 := closeoutScan_error_time (observedIds obs) t1 t2 store.records hscan
    simp [applyCycle, check_completed_sessions, h2]
  | ok x =>
    obtain ⟨recs, comp⟩ := x
    have hA : applyCycle store obs t1 =
        ⟨insertNew recs obs, applyCompleted store.users comp⟩ := by
      simp [applyCycle, check_completed_sessions, hscan]
    rw [hA]
    have hall : ∀ r ∈ insertNew recs obs, r.sessionId ∈ observedIds obs := by
      obtain ⟨extra, heq, hex⟩ := insertNew_eq_append obs recs
      intro r hr
      rw [heq] at hr
      rcases List.mem_append.mp hr with hr' | hr'
      · exact (closeoutScan_ok_recs_mem t1 (observedIds obs) store.records
          recs comp hscan r hr').2
      · obtain ⟨s, hsobs, hid, _, _⟩ := hex r hr'
        rw [hid]
        exact mem_observedIds hsobs
    have hscan2 : closeoutScan t2 (observedIds obs) (insertNew recs obs) =
        .ok (insertNew recs obs, []) :=
      closeoutScan_ok_of_all_present t2 _ _ hall
    have hins : insertNew (insertNew recs obs) obs = insertNew recs obs :=
      insertNew_noop obs _ (fun s hs => insertNew_covers obs recs s hs)
    simp [applyCycle, check_completed_sessions, hscan2, hins, applyCompleted]

/-- Claim C7: closing a session out at `now` with stored logon time `T`
credits exactly round((now - T) in seconds / 60) under the one consistent
rounding mode of Python's `round`, round-half-to-even: the result is
within half a minute of the exact quotient and an exact half minute goes
to the even neighbour. -/
theorem claim_C7_round_half_even (users : List (String × Int))
    (id u ts : String) (m : Nat) (now n : Int) (h : parseLogon ts = some m) :
    applyCycle ⟨[⟨id, u, ts⟩], users⟩ [] now
      = ⟨[], update_user_time users u (sessionDuration now m)⟩
    ∧ sessionDuration now m = roundDiv60 (now - 60 * (m : Int))
    ∧ (60 * roundDiv60 n - n).natAbs ≤ 30
    ∧ ((60 * roundDiv60 n - n).natAbs = 30 → roundDiv60 n % 2 = 0) :=
  ⟨cycle_closeout_single users id u ts m now h, rfl,
   (roundDiv60_near n).1, (roundDiv60_near n).2⟩

/-- Witness for claim C7 at the spec's scenario: logon 01.01.2025 09:00,
closeout observed at 01.01.2025 09:47 - the user's total increases by
exactly 47 minutes. -/
theorem claim_C7_witness :
    parseLogon "01.01.2025 09:00" = some (toMinutes 2025 1 1 9 0)
    ∧ (applyCycle ⟨[⟨"5", "alice", "01.01.2025 09:00"⟩], []⟩ [] sec0947
        = ⟨[], update_user_time [] "alice"
            (sessionDuration sec0947 (toMinutes 2025 1 1 9 0))⟩
      ∧ sessionDuration sec0947 (toMinutes 2025 1 1 9 0)
          = roundDiv60 (sec0947 - 60 * (toMinutes 2025 1 1 9 0 : Int))
      ∧ (60 * roundDiv60 2820 - 2820).natAbs ≤ 30
      ∧ ((60 * roundDiv60 2820 - 2820).natAbs = 30 → roundDiv60 2820 % 2 = 0))
    ∧ update_user_time [] "alice"
        (sessionDuration sec0947 (toMinutes 2025 1 1 9 0)) = [("alice", 47)] :=
  ⟨by decide,
   claim_C7_round_half_even [] "5" "alice" "01.01.2025 09:00"
     (toMinutes 2025 1 1 9 0) sec0947 2820 (by decide),
   by decide⟩

/-- Claim C8: for every store, every sequence of per-host fetch outcomes
and every cycle instant, every `admin` row among the resulting active
records was already stored before the cycle (so an ignored user's session
is never inserted), and the `admin` row of the totals table is unchanged
(so no cycle adds minutes for an ignored user). -/
theorem claim_C8_ignored_user (store : Store) (fetches : List FetchOutcome)
    (now : Int) :
    ((applyCycle store (snapshotOf fetches) now).records.all
      (fun r => r.username != "admin" || decide (r ∈ store.records))) = true
    ∧ lookupTotal (applyCycle store (snapshotOf fetches) now).users "admin"
        = lookupTotal store.users "admin" := by
  cases hscan : closeoutScan now (observedIds (snapshotOf fetches)) store.records with
  | error e =>
    have hA : applyCycle store (snapshotOf fetches) now = store := by
      simp [applyCycle, check_completed_sessions, hscan]
    rw [hA]
    constructor
    · apply List.all_eq_true.mpr
      intro r hr
      simp only [Bool.or_eq_true, bne_iff_ne, decide_eq_true_eq]
      exact Or.inr hr
    · rfl
  | ok x =>
    obtain ⟨recs, comp⟩ := x
    have hrec : (applyCycle store (snapshotOf fetches) now).records =
        insertNew recs (snapshotOf fetches) := by
      simp [applyCycle, check_completed_sessions, hscan]
    have huse : (applyCycle store (snapshotOf fetches) now).users =
        applyCompleted store.users comp := by
      simp [applyCycle, check_completed_sessions, hscan]
    constructor
    · rw [hrec]
      apply List.all_eq_true.mpr
      intro r hr
      obtain ⟨extra, heq, hex⟩ := insertNew_eq_append (snapshotOf fetches) recs
      rw [heq] at hr
      simp only [Bool.or_eq_true, bne_iff_ne, decide_eq_true_eq]
      rcases List.mem_append.mp hr with hr' | hr'
      · exact Or.inr
          (closeoutScan_ok_recs_mem now _ store.records recs comp hscan r hr').1
      · obtain ⟨s, hsobs, _, hname, _⟩ := hex r hr'
        refine Or.inl ?_
        rw [hname]
        exact snapshot_username_ne_admin fetches s hsobs
    · rw [huse]
      exact applyCompleted_lookup_admin comp store.users

/-- Claim C10: an observed session whose id is already stored leaves the
stored row - username and logon timestamp included - completely unchanged,
even when the observation carries a different username and logon time; the
eventual closeout then credits the originally stored user with the full
duration since the originally stored logon time. -/
theorem claim_C10_id_reuse (users : List (String × Int))
    (id u ts u2 st2 ts2 : String) (m : Nat) (now1 now2 : Int)
    (h : parseLogon ts = some m) :
    applyCycle ⟨[⟨id, u, ts⟩], users⟩ [⟨u2, id, st2, ts2⟩] now1
      = ⟨[⟨id, u, ts⟩], users⟩
    ∧ applyCycle ⟨[⟨id, u, ts⟩], users⟩ [] now2
        = ⟨[], update_user_time users u (sessionDuration now2 m)⟩ :=
  ⟨cycle_present_noop users id u ts ⟨u2, id, st2, ts2⟩ now1 rfl,
   cycle_closeout_single users id u ts m now2 h⟩

/-- Witness for claim C10: carl's stored session 4 is re-observed as
belonging to mallory with a different logon time, stays carl's row
unchanged, and its closeout credits carl. -/
theorem claim_C10_witness :
    parseLogon "01.01.2025 09:00" = some (toMinutes 2025 1 1 9 0)
    ∧ (applyCycle ⟨[⟨"4", "carl", "01.01.2025 09:00"⟩], [("carl", 10)]⟩
          [⟨"mallory", "4", "Active", "05.05.2025 05:05"⟩] sec0946
        = ⟨[⟨"4", "carl", "01.01.2025 09:00"⟩], [("carl", 10)]⟩
      ∧ applyCycle ⟨[⟨"4", "carl", "01.01.2025 09:00"⟩], [("carl", 10)]⟩ [] sec0947
        = ⟨[], update_user_time [("carl", 10)] "carl"
            (sessionDuration sec0947 (toMinutes 2025 1 1 9 0))⟩) :=
  ⟨by decide,
   claim_C10_id_reuse [("carl", 10)] "4" "carl" "01.01.2025 09:00"
     "mallory" "Active" "05.05.2025 05:05" (toMinutes 2025 1 1 9 0)
     sec0946 sec0947 (by decide)⟩

end TerminalMonitoring
